import Mathlib

/-!
Verification of the `mlt-silence-slicer` repository
(`src/smart_silence_slicer.py`) against its natural-language
specification.

Times are modelled as exact rationals (`ℚ`): the Python script computes
with floats, but every claim-relevant computation (pairing, split-point
filtering, frame-duration subtraction, millisecond rounding) is plain
field arithmetic, and all concrete inputs used below are exactly
representable, with every comparison and rounding step far from any
float-rounding boundary, so the rational model agrees with the float
execution on them.

External collaborators (ffmpeg silence detection, ffprobe, the file
system, MD5 hashing, XML serialization) are out of the spec's scope; the
MD5 fingerprint is modelled as an arbitrary function of the file bytes,
and the file system as an arbitrary existence predicate.
-/

namespace SilenceSlicer

/-- Python's built-in `round` on the exact value of its argument:
round-half-to-even (used by `format_time` at
`src/smart_silence_slicer.py:144`, `int(round(seconds * 1000))`). -/
def pyRound (q : ℚ) : ℤ :=
  let f := ⌊q⌋
  if q - f < 1/2 then f
  else if 1/2 < q - f then f + 1
  else if f % 2 = 0 then f else f + 1

/-- Python's `f"{n:0wd}"` integer formatting: decimal digits,
left-padded with zeros to width `w`, never truncated. -/
def pyZeroPad (w : ℕ) (n : ℤ) : String :=
  let s := toString n
  String.mk (List.replicate (w - s.length) '0') ++ s

/-- `format_time` (src/smart_silence_slicer.py:140-152): seconds to
`HH:MM:SS.mmm`, rounding the total millisecond count with Python's
`round`, then decomposing with floored `//` and `%`. -/
def format_time (seconds : ℚ) : String :=
  let total_millis := pyRound (seconds * 1000)
  let millis := total_millis % 1000
  let total_seconds := total_millis / 1000
  let h := total_seconds / 3600
  let m := total_seconds % 3600 / 60
  let s := total_seconds % 60
  pyZeroPad 2 h ++ ":" ++ pyZeroPad 2 m ++ ":" ++ pyZeroPad 2 s
    ++ "." ++ pyZeroPad 3 millis

/-- The Timecode Formatter as the spec's words describe it, with
ties-round-up rounding (Mathlib's `round` is exactly
round-half-up): round the total millisecond count, then decompose. -/
def formatTimeSpecUp (seconds : ℚ) : String :=
  let t := round (seconds * 1000)
  pyZeroPad 2 (t / 3600000) ++ ":" ++ pyZeroPad 2 (t % 3600000 / 60000)
    ++ ":" ++ pyZeroPad 2 (t % 60000 / 1000) ++ "." ++ pyZeroPad 3 (t % 1000)

/-- The Timecode Formatter as the spec's words describe it, except with
Python's actual tie behaviour (round-half-to-even): round the total
millisecond count, then decompose. -/
def formatTimeSpecEven (seconds : ℚ) : String :=
  let t := pyRound (seconds * 1000)
  pyZeroPad 2 (t / 3600000) ++ ":" ++ pyZeroPad 2 (t % 3600000 / 60000)
    ++ ":" ++ pyZeroPad 2 (t % 60000 / 1000) ++ "." ++ pyZeroPad 3 (t % 1000)

/-- One state of the pairing loop of `detect_silences`
(src/smart_silence_slicer.py:86-109): `lastOnset` is the onset of the
last emitted pair (`none` before the first pair).  The source's inner
`while current_offset <= current_onset` advance is realized lazily:
each offset `≤ lastOnset` is skipped when it becomes the current one,
which consumes exactly the offsets the source's inner loop does.  The
onset cursor keeps its current element (the head) between iterations,
so the onset state passed on after an emit is the dropped list itself,
with the emitted onset still at its head. -/
def pairLoop (lastOnset : Option ℚ) : List ℚ → List ℚ → List (ℚ × ℚ)
  | [], _ => []
  | o :: os, ns =>
    if lastOnset.any fun b => decide (o ≤ b) then pairLoop lastOnset os ns
    else
      match ns.dropWhile (fun x => decide (x ≤ o)) with
      | [] => []
      | n :: rest => (o, n) :: pairLoop (some n) os (n :: rest)

/-- The pairing part of `detect_silences`
(src/smart_silence_slicer.py:86-109).  The two ffmpeg passes that
produce the `offset_times` and `onset_times` lists are external
collaborators; this is the two-cursor merge over the materialized
lists. -/
def pairSilences (offset_times onset_times : List ℚ) : List (ℚ × ℚ) :=
  pairLoop none offset_times onset_times

/-- The split-point set of `calculate_segments`
(src/smart_silence_slicer.py:159-164): `{0, D}` plus every silence
start and end, as a sorted duplicate-free list (Python sorts the set). -/
def splitPoints (duration_secs : ℚ) (silences : List (ℚ × ℚ)) : List ℚ :=
  List.insertionSort (· ≤ ·)
    ((0 :: duration_secs :: silences.flatMap fun p => [p.1, p.2]).dedup)

/-- The filtering sweep of `calculate_segments`
(src/smart_silence_slicer.py:167-170): keep a point only when it is at
least `min_segment_duration` past the last kept point (`last`). -/
def sweep (m : ℚ) : ℚ → List ℚ → List ℚ
  | _, [] => []
  | last, p :: ps => if m ≤ p - last then p :: sweep m p ps else sweep m last ps

/-- `filtered_points` after the sweep: the first sorted point is always
kept, then the sweep runs over the rest.  `splitPoints` always contains
`0` and `duration_secs`, so the empty case is unreachable. -/
def filteredPoints (duration_secs m : ℚ) (silences : List (ℚ × ℚ)) : List ℚ :=
  match splitPoints duration_secs silences with
  | [] => []
  | p :: ps => p :: sweep m p ps

/-- The tail pop of `calculate_segments`
(src/smart_silence_slicer.py:172-173): drop the last kept point when it
is within `m` of the duration.  (`getLastD 0` models Python's `[-1]` on
the always-nonempty list.) -/
def popShortTail (duration_secs m : ℚ) (l : List ℚ) : List ℚ :=
  if 1 < l.length ∧ duration_secs - l.getLastD 0 < m then l.dropLast else l

/-- The endpoint restore of `calculate_segments`
(src/smart_silence_slicer.py:175-176): re-append the duration if it is
no longer the last point. -/
def forceEndpoint (duration_secs : ℚ) (l : List ℚ) : List ℚ :=
  if l.getLastD 0 ≠ duration_secs then l ++ [duration_secs] else l

/-- The pairing loop of `calculate_segments`
(src/smart_silence_slicer.py:180-181): the `(l[i], l[i+1])` pairs for
`i in range(len(l) - 1)`, i.e. the adjacent pairs of `l`. -/
def adjPairs (l : List ℚ) : List (ℚ × ℚ) :=
  l.zip l.tail

/-- `calculate_segments` (src/smart_silence_slicer.py:154-184): pair up
consecutive filtered points, keeping only pairs with `end > start`. -/
def calculate_segments (duration_secs : ℚ) (silences : List (ℚ × ℚ))
    (min_segment_duration : ℚ) : List (ℚ × ℚ) :=
  let f := forceEndpoint duration_secs
    (popShortTail duration_secs min_segment_duration
      (filteredPoints duration_secs min_segment_duration silences))
  (adjPairs f).filter fun p => p.1 < p.2

/-- `os.path.basename`: everything after the last path separator
(`'/'`), computed as a single left fold that restarts at each
separator. -/
def basenameChars (l : List Char) : List Char :=
  l.foldl (fun acc c => if c = '/' then [] else acc ++ [c]) []

/-- `os.path.basename(input_video)` as used at
src/smart_silence_slicer.py:232. -/
def os_path_basename (s : String) : String :=
  String.mk (basenameChars s.data)

/-- Media Metadata from `get_video_info`
(src/smart_silence_slicer.py:111-138): duration in seconds, exact
rational frame rate, resolution.  The ffprobe call itself is an
external collaborator. -/
structure VideoInfo where
  duration : ℚ
  frame_rate_num : ℤ
  frame_rate_den : ℤ
  width : ℤ
  height : ℤ
deriving DecidableEq

/-- A Video Work Item: one `(input_video, segments, video_info)` triple
of the `video_data` list built by `main`
(src/smart_silence_slicer.py:311-325).  `content` is the byte content
of the file at `path`, which `generate_file_hash` reads
(src/smart_silence_slicer.py:57-63). -/
structure VideoItem where
  path : String
  content : List ℕ
  segments : List (ℚ × ℚ)
  info : VideoInfo
deriving DecidableEq

/-- The claim-relevant attributes of the `profile` element
(src/smart_silence_slicer.py:203-213); the remaining attributes are
fixed constants. -/
structure MltProfile where
  width : String
  height : String
  frame_rate_num : String
  frame_rate_den : String
deriving DecidableEq

/-- The claim-relevant fields of one `chain` element
(src/smart_silence_slicer.py:231-248); the remaining properties are
fixed constants. -/
structure ChainEl where
  id : String
  out : String
  length : String
  resource : String
  hash : String
  caption : String
deriving DecidableEq

/-- One `entry` element of `playlist0`
(src/smart_silence_slicer.py:262).  `inT`/`outT` stand for the `in`/
`out` attributes (Lean keywords). -/
structure EntryEl where
  producer : String
  inT : String
  outT : String
deriving DecidableEq

/-- The claim-relevant content of the generated MLT document, in
document order; the untouched boilerplate (main_bin, transitions, fixed
properties) is constant across runs. -/
structure MltDoc where
  profile : MltProfile
  blackOut : String
  blackLength : String
  backgroundOut : String
  chains : List ChainEl
  entries : List EntryEl
  tractorOut : String
deriving DecidableEq

/-- `total_duration_secs` (src/smart_silence_slicer.py:194): the sum of
`end - start` over all segments of all items. -/
def total_duration_secs (video_data : List VideoItem) : ℚ :=
  (video_data.flatMap fun it => it.segments.map fun s => s.2 - s.1).sum

/-- One `chain` element (src/smart_silence_slicer.py:231-248);
`md5hex` models `generate_file_hash` applied to the file's bytes. -/
def chainFor (md5hex : List ℕ → String) (chain_idx : ℕ) (it : VideoItem) :
    ChainEl :=
  { id := "chain" ++ toString chain_idx
    out := format_time it.info.duration
    length := format_time it.info.duration
    resource := os_path_basename it.path
    hash := md5hex it.content
    caption := os_path_basename it.path }

/-- The playlist entries for one item
(src/smart_silence_slicer.py:255-262): out-point is the segment end for
the item's last segment, otherwise end minus one frame duration,
clamped up to the segment start. -/
def entriesFor (chain_idx : ℕ) (frame_duration : ℚ)
    (segments : List (ℚ × ℚ)) : List EntryEl :=
  segments.enum.map fun ie =>
    let out_time0 := if ie.1 = segments.length - 1 then ie.2.2
      else ie.2.2 - frame_duration
    let out_time := if out_time0 < ie.2.1 then ie.2.1 else out_time0
    { producer := "chain" ++ toString chain_idx
      inT := format_time ie.2.1
      outT := format_time out_time }

/-- `create_mlt_file` (src/smart_silence_slicer.py:186-297), document
assembly only: the serialization and file write are out of scope.
Returns `none` for the empty input, on which the source returns without
writing anything (line 190-191). -/
def create_mlt_file (md5hex : List ℕ → String) (video_data : List VideoItem) :
    Option MltDoc :=
  match video_data with
  | [] => none
  | v0 :: _ =>
    let total := total_duration_secs video_data
    some
      { profile :=
          { width := toString v0.info.width
            height := toString v0.info.height
            frame_rate_num := toString v0.info.frame_rate_num
            frame_rate_den := toString v0.info.frame_rate_den }
        blackOut := format_time total
        blackLength := format_time total
        backgroundOut := format_time total
        chains := video_data.enum.map fun p => chainFor md5hex p.1 p.2
        entries := video_data.enum.flatMap fun p =>
          entriesFor p.1
            ((p.2.info.frame_rate_den : ℚ) / (p.2.info.frame_rate_num : ℚ))
            p.2.segments
        tractorOut := format_time total }

/-- The input-collection loop of `main`
(src/smart_silence_slicer.py:311-325): nonexistent paths are reported
and skipped, existing paths are processed in order.  Returns
(processed paths, printed error lines); the per-file processing
(detection, probing, segmenting) is applied downstream to the first
component. -/
def processInputs (file_exists : String → Bool) (video_files : List String) :
    List String × List String :=
  video_files.foldl
    (fun acc p =>
      if file_exists p then (acc.1 ++ [p], acc.2)
      else (acc.1, acc.2 ++ ["Error: File not found at " ++ p]))
    ([], [])

/-- The exit status of `main` (src/smart_silence_slicer.py:327-329):
`sys.exit(1)` when no valid video file was processed, otherwise a
normal exit (0). -/
def mainExitCode (file_exists : String → Bool) (video_files : List String) :
    ℕ :=
  if (processInputs file_exists video_files).1.isEmpty then 1 else 0

/-- A constant content fingerprint function, standing in for MD5 in
concrete instantiations. -/
def md5c : List ℕ → String := fun _ => "d41d8cd98f00b204e9800998ecf8427e"

/-- Sample metadata for concrete instantiations. -/
def infoA : VideoInfo :=
  { duration := 10, frame_rate_num := 30, frame_rate_den := 1
    width := 1920, height := 1080 }

/-- Sample work item (two segments). -/
def itemA : VideoItem :=
  { path := "a/clip.mp4", content := [1, 2, 3]
    segments := [(0, 1), (2, 5)], info := infoA }

/-- Like `itemA` but stored in a different directory: same base name,
same bytes, same metadata, same segments. -/
def itemB : VideoItem :=
  { path := "b/clip.mp4", content := [1, 2, 3]
    segments := [(0, 1), (2, 5)], info := infoA }

/-- A second, different sample work item (two segments). -/
def itemC : VideoItem :=
  { path := "clips/video.mp4", content := [7]
    segments := [(0, 2), (3, 6)]
    info := { duration := 6, frame_rate_num := 25, frame_rate_den := 1
              width := 1280, height := 720 } }

/-- The projection of a Video Work Item that `create_mlt_file` actually
reads: the file's base name (the directory part is dropped by
`os.path.basename`), the file bytes (input of the fingerprint), the
segment list, and the media metadata. -/
def sameBuilderInput (a b : VideoItem) : Prop :=
  os_path_basename a.path = os_path_basename b.path ∧
  a.content = b.content ∧ a.segments = b.segments ∧ a.info = b.info

end SilenceSlicer

namespace SilenceSlicer

/-- C1 counterexample: on offsets `[1, 5]`, onsets `[2, 6]`, `D = 10`,
`M = 0.1`, the Segment Builder does NOT produce the complement
`[(0,1),(2,5),(6,10)]` of the silence intervals: `calculate_segments`
splits at the silence boundaries but keeps every span, silences
included. -/
theorem scenarioA_not_complement :
    calculate_segments 10 (pairSilences [1, 5] [2, 6]) (1/10)
      ≠ [(0, 1), (2, 5), (6, 10)] := by with_unfolding_all decide

/-- C1 (amended): the Timestamp Pairer turns offsets `[1, 5]` and
onsets `[2, 6]` into intervals `[(1,2),(5,6)]`, and with `D = 10`,
`M = 0.1` the Segment Builder produces the five segments
`[(0,1),(1,2),(2,5),(5,6),(6,10)]`: the partition of `[0, 10]` split at
every silence boundary, with the silence spans themselves kept as
segments. -/
theorem scenarioA_segments :
    pairSilences [1, 5] [2, 6] = [(1, 2), (5, 6)] ∧
    calculate_segments 10 [(1, 2), (5, 6)] (1/10)
      = [(0, 1), (1, 2), (2, 5), (5, 6), (6, 10)] := by with_unfolding_all decide

lemma ediv_ediv_millis (t : ℤ) : t / 1000 / 3600 = t / 3600000 := by omega

lemma emod_ediv_millis (t : ℤ) :
    t / 1000 % 3600 / 60 = t % 3600000 / 60000 := by omega

lemma emod_sec_millis (t : ℤ) : t / 1000 % 60 = t % 60000 / 1000 := by omega

/-- C5 (amended): for every non-negative seconds value, `format_time`
produces `HH:MM:SS.mmm` by rounding the total millisecond count with
round-half-to-EVEN (Python's `round`), then decomposing — equal to the
spec-described formatter with the tie rule corrected from
ties-round-up to ties-round-to-even; the spec's example
`3661.4995 s → "01:01:01.500"` does hold (3661499.5 ms ties upward to
the even count 3661500). -/
theorem format_time_rounds_half_even :
    (∀ q : ℚ, 0 ≤ q → format_time q = formatTimeSpecEven q) ∧
    format_time (36614995/10000) = "01:01:01.500" := by
  constructor
  · intro q _
    simp only [format_time, formatTimeSpecEven]
    rw [ediv_ediv_millis, emod_ediv_millis, emod_sec_millis]
  · with_unfolding_all decide

/-- C5 witness: the general half-even equivalence applied at the spec's
own example input. -/
theorem format_time_rounds_half_even_witness :
    (0:ℚ) ≤ 36614995/10000 ∧
    format_time (36614995/10000) = formatTimeSpecEven (36614995/10000) :=
  ⟨by norm_num, format_time_rounds_half_even.1 _ (by norm_num)⟩

lemma dropWhile_cons_false {p : α → Bool} :
    ∀ {l : List α} {a : α} {t : List α}, l.dropWhile p = a :: t → p a = false := by
  intro l
  induction l with
  | nil => intro a t h; simp [List.dropWhile] at h
  | cons c cs ih =>
    intro a t h
    rw [List.dropWhile_cons] at h
    by_cases hc : p c = true
    · rw [if_pos hc] at h; exact ih h
    · rw [if_neg hc] at h
      cases h
      simpa using hc

lemma pairLoop_onsets_nil (b : Option ℚ) :
    ∀ offs : List ℚ, pairLoop b offs [] = [] := by
  intro offs
  induction offs with
  | nil => rfl
  | cons o os ih =>
    rw [pairLoop]
    split
    · exact ih
    · rfl

lemma pairLoop_bound_lt :
    ∀ (offs ns : List ℚ) (b : ℚ) (pr : ℚ × ℚ),
      pr ∈ pairLoop (some b) offs ns → b < pr.1 := by
  intro offs
  induction offs with
  | nil => intro ns b pr h; simp [pairLoop] at h
  | cons o os ih =>
    intro ns b pr h
    rw [pairLoop] at h
    by_cases hb : o ≤ b
    · rw [if_pos (by simpa using hb)] at h
      exact ih ns b pr h
    · rw [if_neg (by simpa using hb)] at h
      push_neg at hb
      rcases hdw : ns.dropWhile (fun x => decide (x ≤ o)) with _ | ⟨n, rest⟩
      · rw [hdw] at h; simp at h
      · rw [hdw] at h
        have hon : o < n := by
          have := dropWhile_cons_false hdw
          simpa using this
        rcases List.mem_cons.1 h with rfl | h2
        · exact hb
        · exact hb.trans (hon.trans (ih _ n pr h2))

lemma pairLoop_fst_lt_snd :
    ∀ (offs ns : List ℚ) (b : Option ℚ) (pr : ℚ × ℚ),
      pr ∈ pairLoop b offs ns → pr.1 < pr.2 := by
  intro offs
  induction offs with
  | nil => intro ns b pr h; simp [pairLoop] at h
  | cons o os ih =>
    intro ns b pr h
    rw [pairLoop] at h
    split at h
    · exact ih ns b pr h
    · rcases hdw : ns.dropWhile (fun x => decide (x ≤ o)) with _ | ⟨n, rest⟩
      · rw [hdw] at h; simp at h
      · rw [hdw] at h
        have hon : o < n := by
          have := dropWhile_cons_false hdw
          simpa using this
        rcases List.mem_cons.1 h with rfl | h2
        · exact hon
        · exact ih _ (some n) pr h2

lemma pairLoop_chain (offs : List ℚ) :
    ∀ (ns : List ℚ) (b : Option ℚ),
      List.Chain' (fun x y : ℚ × ℚ => x.2 ≤ y.1) (pairLoop b offs ns) := by
  induction offs with
  | nil => intro ns b; simp [pairLoop]
  | cons o os ih =>
    intro ns b
    rw [pairLoop]
    split
    · exact ih ns b
    · rcases hdw : ns.dropWhile (fun x => decide (x ≤ o)) with _ | ⟨n, rest⟩
      · simp
      · refine List.chain'_cons'.2 ⟨?_, ih (n :: rest) (some n)⟩
        intro y hy
        exact le_of_lt
          (pairLoop_bound_lt os (n :: rest) n y (List.mem_of_mem_head? hy))

/-- C3: for non-decreasing offset and onset sequences the Timestamp
Pairer emits intervals with `start < end`, consecutive intervals
satisfy `end ≤ next start` (non-overlapping and ordered), and an empty
input stream on either side yields an empty output.  (The loop
guarantees the first two properties for arbitrary streams.) -/
theorem pairSilences_ordered (offset_times onset_times : List ℚ)
    (h₁ : offset_times.Sorted (· ≤ ·)) (h₂ : onset_times.Sorted (· ≤ ·)) :
    (∀ pr ∈ pairSilences offset_times onset_times, pr.1 < pr.2) ∧
    List.Chain' (fun x y : ℚ × ℚ => x.2 ≤ y.1)
      (pairSilences offset_times onset_times) ∧
    pairSilences [] onset_times = [] ∧
    pairSilences offset_times [] = [] := by
  refine ⟨fun pr hpr => pairLoop_fst_lt_snd _ _ _ pr hpr,
    pairLoop_chain _ _ _, rfl, pairLoop_onsets_nil none offset_times⟩

/-- C3 witness: the pairer theorem applied to the sorted streams of
Scenario A. -/
theorem pairSilences_ordered_witness :
    ([(1:ℚ), 5].Sorted (· ≤ ·) ∧ [(2:ℚ), 6].Sorted (· ≤ ·)) ∧
    ((∀ pr ∈ pairSilences [(1:ℚ), 5] [2, 6], pr.1 < pr.2) ∧
      List.Chain' (fun x y : ℚ × ℚ => x.2 ≤ y.1) (pairSilences [(1:ℚ), 5] [2, 6]) ∧
      pairSilences [] [(2:ℚ), 6] = [] ∧
      pairSilences [(1:ℚ), 5] [] = []) :=
  ⟨⟨by decide, by decide⟩,
    pairSilences_ordered [1, 5] [2, 6] (by decide) (by decide)⟩

lemma processInputs_go (file_exists : String → Bool) :
    ∀ (paths : List String) (a b : List String),
      paths.foldl
        (fun acc p =>
          if file_exists p then (acc.1 ++ [p], acc.2)
          else (acc.1, acc.2 ++ ["Error: File not found at " ++ p]))
        (a, b)
      = (a ++ paths.filter file_exists,
          b ++ (paths.filter fun p => !file_exists p).map
            (fun p => "Error: File not found at " ++ p)) := by
  intro paths
  induction paths with
  | nil => intro a b; simp
  | cons p ps ih =>
    intro a b
    rw [List.foldl_cons]
    by_cases hp : file_exists p
    · rw [if_pos hp]
      rw [ih]
      simp [List.filter_cons, hp]
    · rw [if_neg hp]
      rw [ih]
      have hp' : file_exists p = false := by
        revert hp; cases file_exists p <;> simp
      simp [List.filter_cons, hp']

/-- C8: every input path that does not exist is reported with its own
error line and skipped, the remaining (existing) paths are all
processed in order, and the run exits with a non-zero status iff zero
input files were processed. -/
theorem processInputs_skips_and_exit (file_exists : String → Bool)
    (video_files : List String) :
    (processInputs file_exists video_files).1
      = video_files.filter file_exists ∧
    (processInputs file_exists video_files).2
      = (video_files.filter fun p => !file_exists p).map
          (fun p => "Error: File not found at " ++ p) ∧
    (mainExitCode file_exists video_files ≠ 0 ↔
      video_files.filter file_exists = []) := by
  have hgo := processInputs_go file_exists video_files [] []
  refine ⟨?_, ?_, ?_⟩
  · rw [processInputs, hgo]; simp
  · rw [processInputs, hgo]; simp
  · rw [mainExitCode, processInputs, hgo]
    simp only [List.nil_append]
    by_cases he : (video_files.filter file_exists).isEmpty
    · rw [if_pos he]
      simpa [List.isEmpty_iff] using he
    · rw [if_neg he]
      simp only [ne_eq, not_true_eq_false, iff_false]
      simpa [List.isEmpty_iff] using he

lemma clamp_eq_max (s x : ℚ) : (if x < s then s else x) = max s x := by
  split_ifs with h
  · exact (max_eq_left h.le).symm
  · exact (max_eq_right (not_lt.1 h)).symm

/-- C4: the timeline entry emitted for the `i`-th segment of a work
item has in-point `format_time start` and out-point
`format_time (end - frame_duration)` with
`frame_duration = frame_rate_den / frame_rate_num` of that item —
except the item's last segment, whose out-point is exactly
`format_time end` — and the out-point time is clamped up to the segment
start whenever the subtraction would drop below it (`max start ...`). -/
theorem entriesFor_out_points (it : VideoItem) (chain_idx i : ℕ)
    (h : i < it.segments.length) :
    (entriesFor chain_idx
        ((it.info.frame_rate_den : ℚ) / (it.info.frame_rate_num : ℚ))
        it.segments)[i]?
      = some
        { producer := "chain" ++ toString chain_idx
          inT := format_time (it.segments.get ⟨i, h⟩).1
          outT := format_time
            (max (it.segments.get ⟨i, h⟩).1
              (if i + 1 = it.segments.length then (it.segments.get ⟨i, h⟩).2
               else (it.segments.get ⟨i, h⟩).2
                 - (it.info.frame_rate_den : ℚ) / (it.info.frame_rate_num : ℚ))) } := by
  have hlast : (i = it.segments.length - 1) ↔ (i + 1 = it.segments.length) := by
    omega
  simp only [entriesFor, List.enum_eq_enumFrom, List.getElem?_map,
    List.getElem?_enumFrom, List.getElem?_eq_getElem h, Option.map_some',
    Nat.zero_add, List.get_eq_getElem]
  rw [clamp_eq_max]
  simp only [hlast]

/-- C4 witness: the first of the two segments of `itemA` (not the last
one) gets out-point `1 - 1/30` clamped trivially. -/
theorem entriesFor_out_points_witness :
    0 < itemA.segments.length ∧
    (entriesFor 0
        ((itemA.info.frame_rate_den : ℚ) / (itemA.info.frame_rate_num : ℚ))
        itemA.segments)[0]?
      = some
        { producer := "chain" ++ toString 0
          inT := format_time (itemA.segments.get ⟨0, by decide⟩).1
          outT := format_time
            (max (itemA.segments.get ⟨0, by decide⟩).1
              (if 0 + 1 = itemA.segments.length then
                (itemA.segments.get ⟨0, by decide⟩).2
               else (itemA.segments.get ⟨0, by decide⟩).2
                 - (itemA.info.frame_rate_den : ℚ) / (itemA.info.frame_rate_num : ℚ))) } :=
  ⟨by decide, entriesFor_out_points itemA 0 0 (by decide)⟩

lemma entriesFor_length (c : ℕ) (fd : ℚ) (segs : List (ℚ × ℚ)) :
    (entriesFor c fd segs).length = segs.length := by
  simp [entriesFor, List.enum_eq_enumFrom]

lemma entriesFor_map_producer (c : ℕ) (fd : ℚ) (segs : List (ℚ × ℚ)) :
    (entriesFor c fd segs).map EntryEl.producer
      = List.replicate segs.length ("chain" ++ toString c) := by
  simp only [entriesFor, List.map_map]
  have : (EntryEl.producer ∘ fun ie : ℕ × ℚ × ℚ =>
      ({ producer := "chain" ++ toString c
         inT := format_time ie.2.1
         outT := format_time
           (if (if ie.1 = segs.length - 1 then ie.2.2
                else ie.2.2 - fd) < ie.2.1 then ie.2.1
            else if ie.1 = segs.length - 1 then ie.2.2
                 else ie.2.2 - fd) } : EntryEl))
      = fun _ => "chain" ++ toString c := rfl
  rw [this, List.map_const', List.enum_eq_enumFrom, List.enumFrom_length]

lemma entries_flat_length (md5hex : List ℕ → String) :
    ∀ (l : List VideoItem) (k : ℕ),
      ((List.enumFrom k l).flatMap fun p =>
        entriesFor p.1
          ((p.2.info.frame_rate_den : ℚ) / (p.2.info.frame_rate_num : ℚ))
          p.2.segments).length
      = (l.map fun it => it.segments.length).sum := by
  intro l
  induction l with
  | nil => intro k; rfl
  | cons a t ih =>
    intro k
    simp only [List.enumFrom_cons, List.flatMap_cons, List.length_append,
      List.map_cons, List.sum_cons, entriesFor_length, ih]

lemma entries_flat_producers :
    ∀ (l : List VideoItem) (k : ℕ),
      (((List.enumFrom k l).flatMap fun p =>
        entriesFor p.1
          ((p.2.info.frame_rate_den : ℚ) / (p.2.info.frame_rate_num : ℚ))
          p.2.segments).map EntryEl.producer)
      = (List.enumFrom k l).flatMap fun p =>
          List.replicate p.2.segments.length ("chain" ++ toString p.1) := by
  intro l
  induction l with
  | nil => intro k; rfl
  | cons a t ih =>
    intro k
    simp only [List.enumFrom_cons, List.flatMap_cons, List.map_append,
      entriesFor_map_producer, ih]

/-- C6: for a non-empty input list the Project Document Builder emits
exactly one chain per work item (ids `chain0`, `chain1`, ... in item
order), exactly one playlist entry per segment, the entries grouped by
item in item order (segment order within each item), and the background
track out-point equal to the formatted sum of all segment durations
over all items. -/
theorem create_mlt_file_structure (md5hex : List ℕ → String)
    (video_data : List VideoItem) (hne : video_data ≠ []) :
    (create_mlt_file md5hex video_data).map (fun d => d.chains.length)
      = some video_data.length ∧
    (create_mlt_file md5hex video_data).map (fun d => d.chains.map ChainEl.id)
      = some ((List.range video_data.length).map fun i => "chain" ++ toString i) ∧
    (create_mlt_file md5hex video_data).map (fun d => d.entries.length)
      = some ((video_data.map fun it => it.segments.length).sum) ∧
    (create_mlt_file md5hex video_data).map (fun d => d.entries.map EntryEl.producer)
      = some (video_data.enum.flatMap fun p =>
          List.replicate p.2.segments.length ("chain" ++ toString p.1)) ∧
    (create_mlt_file md5hex video_data).map MltDoc.backgroundOut
      = some (format_time (total_duration_secs video_data)) := by
  obtain ⟨v0, vs, rfl⟩ := List.exists_cons_of_ne_nil hne
  refine ⟨?_, ?_, ?_, ?_, rfl⟩
  · simp [create_mlt_file, List.enum_eq_enumFrom]
  · simp only [create_mlt_file, Option.map_some', Option.some.injEq,
      List.map_map]
    have h1 : (ChainEl.id ∘ fun p : ℕ × VideoItem => chainFor md5hex p.1 p.2)
        = (fun i => "chain" ++ toString i) ∘ Prod.fst := rfl
    rw [h1, ← List.map_map, List.enum_eq_enumFrom, List.enumFrom_map_fst,
      List.range_eq_range']
  · simp only [create_mlt_file, Option.map_some', Option.some.injEq,
      List.enum_eq_enumFrom]
    exact entries_flat_length md5hex (v0 :: vs) 0
  · simp only [create_mlt_file, Option.map_some', Option.some.injEq,
      List.enum_eq_enumFrom]
    exact entries_flat_producers (v0 :: vs) 0

/-- C6 witness: two work items with two segments each give two chains
and four entries in (item 1 segment 1, item 1 segment 2, item 2
segment 1, item 2 segment 2) order, and the background spans the total
retained duration. -/
theorem create_mlt_file_structure_witness :
    ([itemA, itemC] : List VideoItem) ≠ [] ∧
    ((create_mlt_file md5c [itemA, itemC]).map (fun d => d.chains.length)
        = some 2 ∧
      (create_mlt_file md5c [itemA, itemC]).map (fun d => d.chains.map ChainEl.id)
        = some ((List.range 2).map fun i => "chain" ++ toString i) ∧
      (create_mlt_file md5c [itemA, itemC]).map (fun d => d.entries.length)
        = some (([itemA, itemC].map fun it => it.segments.length).sum) ∧
      (create_mlt_file md5c [itemA, itemC]).map (fun d => d.entries.map EntryEl.producer)
        = some ([itemA, itemC].enum.flatMap fun p =>
            List.replicate p.2.segments.length ("chain" ++ toString p.1)) ∧
      (create_mlt_file md5c [itemA, itemC]).map MltDoc.backgroundOut
        = some (format_time (total_duration_secs [itemA, itemC]))) :=
  ⟨by simp, create_mlt_file_structure md5c [itemA, itemC] (by simp)⟩

lemma basenameChars_aux_no_slash :
    ∀ (l acc : List Char), '/' ∉ acc →
      '/' ∉ l.foldl (fun acc c => if c = '/' then [] else acc ++ [c]) acc := by
  intro l
  induction l with
  | nil => intro acc h; simpa using h
  | cons c cs ih =>
    intro acc h
    rw [List.foldl_cons]
    by_cases hc : c = '/'
    · exact ih _ (by simp [hc])
    · refine ih _ ?_
      rw [if_neg hc]
      intro hmem
      rcases List.mem_append.1 hmem with h1 | h1
      · exact h h1
      · exact hc (List.mem_singleton.1 h1).symm

lemma basenameChars_no_slash (l : List Char) : '/' ∉ basenameChars l :=
  basenameChars_aux_no_slash l [] (by simp)

/-- C7: the profile block of the output document is computed from the
first work item only (independent of all later items, and equal to the
first item's metadata rendered to strings), and every chain's resource
property is the base name of the item's file — a string that cannot
contain a path separator. -/
theorem create_mlt_file_profile_and_resources (md5hex : List ℕ → String) :
    (∀ (v : VideoItem) (rest₁ rest₂ : List VideoItem),
      (create_mlt_file md5hex (v :: rest₁)).map MltDoc.profile
        = (create_mlt_file md5hex (v :: rest₂)).map MltDoc.profile) ∧
    (∀ (v : VideoItem) (rest : List VideoItem),
      (create_mlt_file md5hex (v :: rest)).map MltDoc.profile
        = some
          { width := toString v.info.width
            height := toString v.info.height
            frame_rate_num := toString v.info.frame_rate_num
            frame_rate_den := toString v.info.frame_rate_den }) ∧
    (∀ (v : VideoItem) (rest : List VideoItem),
      (create_mlt_file md5hex (v :: rest)).map
          (fun d => d.chains.map ChainEl.resource)
        = some ((v :: rest).map fun it => os_path_basename it.path)) ∧
    (∀ (video_data : List VideoItem) (c : ChainEl),
      c ∈ (create_mlt_file md5hex video_data).elim [] MltDoc.chains →
      '/' ∉ c.resource.data) := by
  refine ⟨fun v r₁ r₂ => rfl, fun v r => rfl, ?_, ?_⟩
  · intro v rest
    simp only [create_mlt_file, Option.map_some', Option.some.injEq,
      List.map_map]
    have h1 : (ChainEl.resource ∘ fun p : ℕ × VideoItem => chainFor md5hex p.1 p.2)
        = (fun it => os_path_basename it.path) ∘ Prod.snd := rfl
    rw [h1, ← List.map_map, List.enum_eq_enumFrom, List.enumFrom_map_snd]
  · intro video_data c hc
    rcases video_data with _ | ⟨v, rest⟩
    · simp [create_mlt_file] at hc
    · simp only [create_mlt_file, Option.elim_some] at hc
      rcases List.mem_map.1 hc with ⟨p, _, rfl⟩
      exact basenameChars_no_slash _

/-- C7 witness: a chain built from a path with directories
(`clips/video.mp4`) is in the document and its resource has no
separator. -/
theorem create_mlt_file_profile_and_resources_witness :
    chainFor md5c 0 itemC
      ∈ (create_mlt_file md5c [itemC]).elim [] MltDoc.chains ∧
    '/' ∉ (chainFor md5c 0 itemC).resource.data :=
  have hmem : chainFor md5c 0 itemC
      ∈ (create_mlt_file md5c [itemC]).elim [] MltDoc.chains :=
    List.mem_singleton.2 rfl
  ⟨hmem,
    (create_mlt_file_profile_and_resources md5c).2.2.2 [itemC] _ hmem⟩

lemma forall₂_total_duration {v₁ v₂ : List VideoItem}
    (h : List.Forall₂ sameBuilderInput v₁ v₂) :
    total_duration_secs v₁ = total_duration_secs v₂ := by
  induction h with
  | nil => rfl
  | cons ha _ ih =>
    simp only [total_duration_secs, List.flatMap_cons, List.sum_append] at *
    rw [ha.2.2.1, ih]

lemma forall₂_chains (md5hex : List ℕ → String) :
    ∀ {v₁ v₂ : List VideoItem}, List.Forall₂ sameBuilderInput v₁ v₂ →
      ∀ k : ℕ,
        (List.enumFrom k v₁).map (fun p => chainFor md5hex p.1 p.2)
          = (List.enumFrom k v₂).map (fun p => chainFor md5hex p.1 p.2) := by
  intro v₁ v₂ h
  induction h with
  | nil => intro k; rfl
  | cons ha htail ih =>
    rename_i a b l₁ l₂
    intro k
    simp only [List.enumFrom_cons, List.map_cons]
    rw [ih (k + 1)]
    have hch : chainFor md5hex k a = chainFor md5hex k b := by
      simp only [chainFor, ha.1, ha.2.1, ha.2.2.2]
    rw [hch]

lemma forall₂_entries :
    ∀ {v₁ v₂ : List VideoItem}, List.Forall₂ sameBuilderInput v₁ v₂ →
      ∀ k : ℕ,
        ((List.enumFrom k v₁).flatMap fun p =>
          entriesFor p.1
            ((p.2.info.frame_rate_den : ℚ) / (p.2.info.frame_rate_num : ℚ))
            p.2.segments)
        = (List.enumFrom k v₂).flatMap fun p =>
            entriesFor p.1
              ((p.2.info.frame_rate_den : ℚ) / (p.2.info.frame_rate_num : ℚ))
              p.2.segments := by
  intro v₁ v₂ h
  induction h with
  | nil => intro k; rfl
  | cons ha _ ih =>
    intro k
    simp only [List.enumFrom_cons, List.flatMap_cons]
    rw [ih (k + 1), ha.2.2.1, ha.2.2.2]

/-- C9: the Project Document Builder is a deterministic function of
exactly the inputs it reads: for any two item lists that agree
pairwise on base name, file bytes, segment list and metadata (in
particular, for two runs on identical Video Work Items) the built
documents are equal, and hence their serializations byte-identical. -/
theorem create_mlt_file_deterministic (md5hex : List ℕ → String)
    (v₁ v₂ : List VideoItem) (h : List.Forall₂ sameBuilderInput v₁ v₂) :
    create_mlt_file md5hex v₁ = create_mlt_file md5hex v₂ := by
  cases h with
  | nil => rfl
  | cons ha htail =>
    rename_i a b l₁ l₂
    have hall : List.Forall₂ sameBuilderInput (a :: l₁) (b :: l₂) :=
      List.Forall₂.cons ha htail
    have htot := forall₂_total_duration hall
    have hc := forall₂_chains md5hex hall 0
    have hent := forall₂_entries hall 0
    simp only [create_mlt_file, List.enum_eq_enumFrom]
    rw [htot, ha.2.2.2, hc, hent]

/-- C9 witness: two items identical in base name, bytes, segments and
metadata but stored in different directories produce equal documents. -/
theorem create_mlt_file_deterministic_witness :
    List.Forall₂ sameBuilderInput [itemA] [itemB] ∧
    create_mlt_file md5c [itemA] = create_mlt_file md5c [itemB] :=
  have h : List.Forall₂ sameBuilderInput [itemA] [itemB] :=
    List.Forall₂.cons ⟨by with_unfolding_all decide, rfl, rfl, rfl⟩
      List.Forall₂.nil
  ⟨h, create_mlt_file_deterministic md5c _ _ h⟩

section SegmentBuilder

lemma splitPoints_sorted_le (D : ℚ) (sil : List (ℚ × ℚ)) :
    (splitPoints D sil).Sorted (· ≤ ·) :=
  List.sorted_insertionSort _ _

lemma splitPoints_nodup (D : ℚ) (sil : List (ℚ × ℚ)) :
    (splitPoints D sil).Nodup :=
  ((List.perm_insertionSort _ _).nodup_iff).2 (List.nodup_dedup _)

lemma splitPoints_sorted (D : ℚ) (sil : List (ℚ × ℚ)) :
    (splitPoints D sil).Sorted (· < ·) :=
  (splitPoints_sorted_le D sil).lt_of_le (splitPoints_nodup D sil)

lemma mem_splitPoints {D x : ℚ} {sil : List (ℚ × ℚ)} :
    x ∈ splitPoints D sil ↔
      x = 0 ∨ x = D ∨ ∃ p ∈ sil, x = p.1 ∨ x = p.2 := by
  unfold splitPoints
  rw [(List.perm_insertionSort _ _).mem_iff, List.mem_dedup]
  simp [List.mem_flatMap]

lemma zero_mem_splitPoints (D : ℚ) (sil : List (ℚ × ℚ)) :
    (0 : ℚ) ∈ splitPoints D sil :=
  mem_splitPoints.2 (Or.inl rfl)

lemma duration_mem_splitPoints (D : ℚ) (sil : List (ℚ × ℚ)) :
    D ∈ splitPoints D sil :=
  mem_splitPoints.2 (Or.inr (Or.inl rfl))

lemma splitPoints_bounds {D : ℚ} {sil : List (ℚ × ℚ)} (hD : 0 ≤ D)
    (hsil : ∀ p ∈ sil, 0 ≤ p.1 ∧ p.1 ≤ D ∧ 0 ≤ p.2 ∧ p.2 ≤ D) :
    ∀ x ∈ splitPoints D sil, 0 ≤ x ∧ x ≤ D := by
  intro x hx
  rcases mem_splitPoints.1 hx with rfl | rfl | ⟨p, hp, rfl | rfl⟩
  · exact ⟨le_rfl, hD⟩
  · exact ⟨hD, le_rfl⟩
  · exact ⟨(hsil p hp).1, (hsil p hp).2.1⟩
  · exact ⟨(hsil p hp).2.2.1, (hsil p hp).2.2.2⟩

lemma head?_eq_min {l : List ℚ} {a : ℚ} (hs : l.Sorted (· ≤ ·)) (ha : a ∈ l)
    (hmin : ∀ x ∈ l, a ≤ x) : l.head? = some a := by
  cases l with
  | nil => cases ha
  | cons b t =>
    simp only [List.head?_cons, Option.some.injEq]
    rcases List.mem_cons.1 ha with rfl | hat
    · rfl
    · exact le_antisymm (List.rel_of_sorted_cons hs a hat)
        (hmin b (List.mem_cons_self b t))

lemma le_getLastD_of_sorted :
    ∀ {l : List ℚ}, l.Sorted (· ≤ ·) → ∀ x ∈ l, x ≤ l.getLastD 0 := by
  intro l
  induction l with
  | nil => intro _ x hx; cases hx
  | cons b t ih =>
    intro hs x hx
    cases t with
    | nil =>
      rcases List.mem_singleton.1 hx with rfl
      simp
    | cons c t' =>
      have hgl : (b :: c :: t').getLastD 0 = (c :: t').getLastD 0 := by
        simp [List.getLastD_eq_getLast?, List.getLast?_cons_cons]
      rw [hgl]
      rcases List.mem_cons.1 hx with rfl | hxt
      · exact le_trans (List.rel_of_sorted_cons hs c (List.mem_cons_self c t'))
          (ih hs.of_cons c (List.mem_cons_self c t'))
      · exact ih hs.of_cons x hxt

lemma getLastD_mem_of_ne_nil :
    ∀ {l : List ℚ}, l ≠ [] → l.getLastD 0 ∈ l := by
  intro l
  induction l with
  | nil => intro h; exact absurd rfl h
  | cons b t ih =>
    intro _
    cases t with
    | nil => simp
    | cons c t' =>
      have hgl : (b :: c :: t').getLastD 0 = (c :: t').getLastD 0 := by
        simp [List.getLastD_eq_getLast?, List.getLast?_cons_cons]
      rw [hgl]
      exact List.mem_cons_of_mem b (ih (List.cons_ne_nil c t'))

lemma sweep_sublist (m : ℚ) :
    ∀ (ps : List ℚ) (last : ℚ), List.Sublist (sweep m last ps) ps := by
  intro ps
  induction ps with
  | nil => intro last; simp [sweep]
  | cons p t ih =>
    intro last
    rw [sweep]
    split
    · exact (ih p).cons₂ p
    · exact (ih last).cons p

lemma sweep_chain (m : ℚ) :
    ∀ (ps : List ℚ) (last : ℚ),
      List.Chain (fun a b => m ≤ b - a) last (sweep m last ps) := by
  intro ps
  induction ps with
  | nil => intro last; simp [sweep]
  | cons p t ih =>
    intro last
    rw [sweep]
    split
    · exact List.Chain.cons (by assumption) (ih p)
    · exact ih last

lemma filteredPoints_spec (D m : ℚ) (sil : List (ℚ × ℚ)) (hD : 0 ≤ D)
    (hsil : ∀ p ∈ sil, 0 ≤ p.1 ∧ p.1 ≤ D ∧ 0 ≤ p.2 ∧ p.2 ≤ D) :
    (filteredPoints D m sil).head? = some 0 ∧
    (filteredPoints D m sil).Sorted (· < ·) ∧
    (∀ x ∈ filteredPoints D m sil, 0 ≤ x ∧ x ≤ D) ∧
    List.Chain' (fun a b => m ≤ b - a) (filteredPoints D m sil) := by
  have hhead : (splitPoints D sil).head? = some 0 :=
    head?_eq_min (splitPoints_sorted_le D sil) (zero_mem_splitPoints D sil)
      (fun x hx => (splitPoints_bounds hD hsil x hx).1)
  have hsorted := splitPoints_sorted D sil
  rcases hsp : splitPoints D sil with _ | ⟨s, ss⟩
  · rw [hsp] at hhead; cases hhead
  · rw [hsp] at hhead hsorted
    have hs0 : s = 0 := by
      simpa using hhead
    have hsub : List.Sublist (sweep m s ss) ss := sweep_sublist m ss s
    have hmem : ∀ x ∈ sweep m s ss, x ∈ ss := fun x hx => hsub.mem hx
    have hFsorted : (s :: sweep m s ss).Sorted (· < ·) :=
      List.sorted_cons.2
        ⟨fun b hb => (List.rel_of_sorted_cons hsorted b (hmem b hb)),
          List.Pairwise.sublist hsub hsorted.of_cons⟩
    refine ⟨?_, ?_, ?_, ?_⟩
    · rw [filteredPoints, hsp]
      simpa using hs0
    · rw [filteredPoints, hsp]
      exact hFsorted
    · rw [filteredPoints, hsp]
      intro x hx
      rcases List.mem_cons.1 hx with rfl | hx2
      · exact splitPoints_bounds hD hsil x (hsp ▸ List.mem_cons_self x ss)
      · exact splitPoints_bounds hD hsil x
          (hsp ▸ List.mem_cons_of_mem s (hmem x hx2))
    · rw [filteredPoints, hsp]
      exact sweep_chain m ss s

lemma adjPairs_cons_cons (a b : ℚ) (t : List ℚ) :
    adjPairs (a :: b :: t) = (a, b) :: adjPairs (b :: t) := rfl

lemma adjPairs_chain_eq :
    ∀ l : List ℚ,
      List.Chain' (fun x y : ℚ × ℚ => x.2 = y.1) (adjPairs l) := by
  intro l
  induction l with
  | nil => simp [adjPairs]
  | cons a t ih =>
    cases t with
    | nil => simp [adjPairs]
    | cons b t' =>
      rw [adjPairs_cons_cons]
      refine List.chain'_cons'.2 ⟨?_, ih⟩
      intro y hy
      cases t' with
      | nil => cases hy
      | cons c t'' =>
        rw [adjPairs_cons_cons] at hy
        cases hy
        rfl

lemma mem_adjPairs {l : List ℚ} {pr : ℚ × ℚ} (h : pr ∈ adjPairs l) :
    pr.1 ∈ l ∧ pr.2 ∈ l := by
  obtain ⟨a, b⟩ := pr
  have hab := List.of_mem_zip h
  exact ⟨hab.1, List.mem_of_mem_tail hab.2⟩

lemma chain'_imp_adjPairs {r : ℚ → ℚ → Prop} :
    ∀ {l : List ℚ}, List.Chain' r l → ∀ pr ∈ adjPairs l, r pr.1 pr.2 := by
  intro l
  induction l with
  | nil => intro _ pr h; cases h
  | cons a t ih =>
    cases t with
    | nil => intro _ pr h; cases h
    | cons b t' =>
      intro hc pr hpr
      rw [adjPairs_cons_cons] at hpr
      rcases List.mem_cons.1 hpr with rfl | h2
      · exact (List.chain'_cons.1 hc).1
      · exact ih (List.chain'_cons.1 hc).2 pr h2

lemma adjPairs_concat :
    ∀ (l : List ℚ), l ≠ [] → ∀ a : ℚ,
      adjPairs (l ++ [a]) = adjPairs l ++ [(l.getLastD 0, a)] := by
  intro l
  induction l with
  | nil => intro h; exact absurd rfl h
  | cons b t ih =>
    intro _ a
    cases t with
    | nil => rfl
    | cons c t' =>
      have h1 : (b :: c :: t') ++ [a] = b :: ((c :: t') ++ [a]) := rfl
      rw [h1]
      have h2 : adjPairs (b :: (c :: t' ++ [a])) =
          (b, c) :: adjPairs (c :: t' ++ [a]) := rfl
      rw [h2, ih (List.cons_ne_nil c t') a, adjPairs_cons_cons]
      have hgl : (b :: c :: t').getLastD 0 = (c :: t').getLastD 0 := by
        simp [List.getLastD_eq_getLast?, List.getLast?_cons_cons]
      rw [hgl]
      rfl

lemma adjPairs_head?_fst :
    ∀ {l : List ℚ}, 2 ≤ l.length →
      (adjPairs l).head?.map Prod.fst = l.head? := by
  intro l h
  match l, h with
  | a :: b :: t, _ => rfl

/-- The final point list of `calculate_segments` (after the sweep, the
tail pop and the endpoint restore) always has the shape `B ++ [D]`,
where `B` is strictly sorted, lies in `[0, D)`, has consecutive gaps of
at least `m`, starts at `0` whenever `0 < D`, and is empty when
`D = 0`. -/
lemma finalPoints_decomp (D m : ℚ) (sil : List (ℚ × ℚ)) (hD : 0 ≤ D)
    (hsil : ∀ p ∈ sil, 0 ≤ p.1 ∧ p.1 ≤ D ∧ 0 ≤ p.2 ∧ p.2 ≤ D) :
    ∃ B : List ℚ,
      forceEndpoint D (popShortTail D m (filteredPoints D m sil)) = B ++ [D] ∧
      B.Sorted (· < ·) ∧
      (∀ x ∈ B, 0 ≤ x ∧ x < D) ∧
      List.Chain' (fun a b => m ≤ b - a) B ∧
      (0 < D → B.head? = some 0) ∧
      (D = 0 → B = []) := by
  obtain ⟨hhead, hsorted, hbounds, hchain⟩ := filteredPoints_spec D m sil hD hsil
  set F := filteredPoints D m sil with hFdef
  have hFne : F ≠ [] := by intro h; rw [h] at hhead; cases hhead
  have hFsorted_le : F.Sorted (· ≤ ·) := hsorted.le_of_lt
  have hD0 : D = 0 → F = [0] := by
    intro h0
    have hall : ∀ x ∈ F, x = 0 := fun x hx =>
      le_antisymm (h0 ▸ (hbounds x hx).2) (hbounds x hx).1
    rcases hFeq : F with _ | ⟨f₀, ftail⟩
    · exact absurd hFeq hFne
    · have hf₀ : f₀ = 0 := by rw [hFeq] at hhead; simpa using hhead
      cases ftail with
      | nil => rw [hf₀]
      | cons c t =>
        exfalso
        have hc0 : c = 0 := hall c
          (by rw [hFeq]; exact List.mem_cons_of_mem _ (List.mem_cons_self c t))
        have hlt : f₀ < c := by
          rw [hFeq] at hsorted
          exact List.rel_of_sorted_cons hsorted c (List.mem_cons_self c t)
        rw [hf₀, hc0] at hlt
        exact lt_irrefl 0 hlt
  by_cases hpop : 1 < F.length ∧ D - F.getLastD 0 < m
  · -- the tail pop fires: the final list is F.dropLast ++ [D]
    have hpop_eq : popShortTail D m F = F.dropLast := by
      rw [popShortTail, if_pos hpop]
    have hsplit : F.dropLast ++ [F.getLast hFne] = F :=
      List.dropLast_concat_getLast hFne
    have hlast_le : F.getLast hFne ≤ D := (hbounds _ (List.getLast_mem hFne)).2
    have hlt_last : ∀ x ∈ F.dropLast, x < F.getLast hFne := by
      have hpw := hsorted
      rw [← hsplit] at hpw
      intro x hx
      exact (List.pairwise_append.1 hpw).2.2 x hx (F.getLast hFne)
        (List.mem_singleton.2 rfl)
    have hBbounds : ∀ x ∈ F.dropLast, 0 ≤ x ∧ x < D := fun x hx =>
      ⟨(hbounds x ((List.dropLast_sublist F).mem hx)).1,
        lt_of_lt_of_le (hlt_last x hx) hlast_le⟩
    have hGne : F.dropLast ≠ [] := by
      have hlen : 0 < F.dropLast.length := by
        rw [List.length_dropLast]
        omega
      exact List.length_pos.1 hlen
    have hGlast_lt : F.dropLast.getLastD 0 < D :=
      (hBbounds _ (getLastD_mem_of_ne_nil hGne)).2
    have hforce : forceEndpoint D F.dropLast = F.dropLast ++ [D] := by
      rw [forceEndpoint, if_pos (ne_of_lt hGlast_lt)]
    refine ⟨F.dropLast, by rw [hpop_eq, hforce], ?_, hBbounds, ?_, ?_, ?_⟩
    · exact List.Pairwise.sublist (List.dropLast_sublist F) hsorted
    · have hch := hchain
      rw [← hsplit] at hch
      exact hch.left_of_append
    · intro _
      rw [List.head?_dropLast, if_pos hpop.1]
      exact hhead
    · intro h0
      rw [hD0 h0] at hpop
      simp at hpop
  · -- no pop
    have hpop_eq : popShortTail D m F = F := by rw [popShortTail, if_neg hpop]
    by_cases hL : F.getLastD 0 ≠ D
    · -- the endpoint is re-appended: final list is F ++ [D]
      have hforce : forceEndpoint D F = F ++ [D] := by
        rw [forceEndpoint, if_pos hL]
      have hlt : ∀ x ∈ F, x < D := by
        intro x hx
        have hxle : x ≤ F.getLastD 0 := le_getLastD_of_sorted hFsorted_le x hx
        have hLD : F.getLastD 0 ≤ D :=
          (hbounds _ (getLastD_mem_of_ne_nil hFne)).2
        exact lt_of_le_of_lt hxle (lt_of_le_of_ne hLD hL)
      refine ⟨F, by rw [hpop_eq, hforce], hsorted,
        fun x hx => ⟨(hbounds x hx).1, hlt x hx⟩, hchain, fun _ => hhead, ?_⟩
      intro h0
      rw [hD0 h0] at hL
      simp [h0] at hL
    · -- the kept list already ends in D: final list is F = F.dropLast ++ [D]
      push_neg at hL
      have hforce : forceEndpoint D F = F := by
        rw [forceEndpoint, if_neg (not_ne_iff.2 hL)]
      have hgetlast : F.getLast hFne = D := by
        have hgd : F.getLastD 0 = F.getLast hFne := by
          rw [List.getLastD_eq_getLast?, List.getLast?_eq_getLast F hFne]
          rfl
        rw [← hgd]
        exact hL
      have hsplit : F.dropLast ++ [D] = F := by
        have hdc := List.dropLast_concat_getLast hFne
        rw [hgetlast] at hdc
        exact hdc
      have hlt : ∀ x ∈ F.dropLast, x < D := by
        have hpw := hsorted
        rw [← hsplit] at hpw
        intro x hx
        exact (List.pairwise_append.1 hpw).2.2 x hx D (List.mem_singleton.2 rfl)
      refine ⟨F.dropLast, ?_, ?_, ?_, ?_, ?_, ?_⟩
      · rw [hpop_eq, hforce]
        exact hsplit.symm
      · exact List.Pairwise.sublist (List.dropLast_sublist F) hsorted
      · exact fun x hx =>
          ⟨(hbounds x ((List.dropLast_sublist F).mem hx)).1, hlt x hx⟩
      · have hch := hchain
        rw [← hsplit] at hch
        exact hch.left_of_append
      · intro hDpos
        have hlen : 1 < F.length := by
          rcases hFeq : F with _ | ⟨a, t⟩
          · exact absurd hFeq hFne
          · cases t with
            | nil =>
              exfalso
              have ha0 : a = 0 := by rw [hFeq] at hhead; simpa using hhead
              have haD : a = D := by
                rw [hFeq] at hL
                simpa using hL
              rw [ha0] at haD
              rw [← haD] at hDpos
              exact lt_irrefl 0 hDpos
            | cons c t' => simp
        rw [List.head?_dropLast, if_pos hlen]
        exact hhead
      · intro h0
        rw [hD0 h0]
        rfl

/-- Full characterization of `calculate_segments` for silence endpoints
within `[0, D]`: contiguous ordered segments inside `[0, D]`, first
start `0` and last end `D` (the list is empty exactly when `D = 0`),
and all gaps except possibly the last of length at least `m`. -/
lemma calculate_segments_spec (D m : ℚ) (sil : List (ℚ × ℚ)) (hD : 0 ≤ D)
    (hsil : ∀ p ∈ sil, 0 ≤ p.1 ∧ p.1 ≤ D ∧ 0 ≤ p.2 ∧ p.2 ≤ D) :
    List.Chain' (fun s t : ℚ × ℚ => s.2 = t.1) (calculate_segments D sil m) ∧
    (∀ s ∈ calculate_segments D sil m, 0 ≤ s.1 ∧ s.1 < s.2 ∧ s.2 ≤ D) ∧
    ((calculate_segments D sil m).head?.map Prod.fst
      = if D = 0 then none else some 0) ∧
    ((calculate_segments D sil m).getLast?.map Prod.snd
      = if D = 0 then none else some D) ∧
    (∀ s ∈ (calculate_segments D sil m).dropLast, m ≤ s.2 - s.1) := by
  obtain ⟨B, hB, hBsorted, hBbounds, hBchain, hBhead, hBnil⟩ :=
    finalPoints_decomp D m sil hD hsil
  have hHsorted : (B ++ [D]).Sorted (· < ·) := by
    refine List.pairwise_append.2 ⟨hBsorted, List.pairwise_singleton _ _, ?_⟩
    intro x hx y hy
    rw [List.mem_singleton.1 hy]
    exact (hBbounds x hx).2
  have hsegs : calculate_segments D sil m = adjPairs (B ++ [D]) := by
    rw [calculate_segments, hB]
    apply List.filter_eq_self.2
    intro pr hpr
    simpa using chain'_imp_adjPairs hHsorted.chain' pr hpr
  have hHbounds : ∀ x ∈ B ++ [D], 0 ≤ x ∧ x ≤ D := by
    intro x hx
    rcases List.mem_append.1 hx with hx | hx
    · exact ⟨(hBbounds x hx).1, (hBbounds x hx).2.le⟩
    · rw [List.mem_singleton.1 hx]
      exact ⟨hD, le_rfl⟩
  refine ⟨?_, ?_, ?_, ?_, ?_⟩
  · rw [hsegs]
    exact adjPairs_chain_eq (B ++ [D])
  · intro s hs
    rw [hsegs] at hs
    obtain ⟨hs1, hs2⟩ := mem_adjPairs hs
    exact ⟨(hHbounds _ hs1).1, chain'_imp_adjPairs hHsorted.chain' s hs,
      (hHbounds _ hs2).2⟩
  · by_cases h0 : D = 0
    · rw [if_pos h0, hsegs, hBnil h0]
      rfl
    · rw [if_neg h0, hsegs]
      have hDpos : 0 < D := lt_of_le_of_ne hD (Ne.symm h0)
      have hBne : B ≠ [] := by
        intro h
        have := hBhead hDpos
        rw [h] at this
        cases this
      have hlen : 2 ≤ (B ++ [D]).length := by
        rw [List.length_append]
        have : 0 < B.length := List.length_pos.2 hBne
        simp only [List.length_singleton]
        omega
      rw [adjPairs_head?_fst hlen, List.head?_append, hBhead hDpos]
      rfl
  · by_cases h0 : D = 0
    · rw [if_pos h0, hsegs, hBnil h0]
      rfl
    · rw [if_neg h0, hsegs]
      have hDpos : 0 < D := lt_of_le_of_ne hD (Ne.symm h0)
      have hBne : B ≠ [] := by
        intro h
        have := hBhead hDpos
        rw [h] at this
        cases this
      rw [adjPairs_concat B hBne D, List.getLast?_concat]
      rfl
  · intro s hs
    rw [hsegs] at hs
    by_cases hBne : B = []
    · rw [hBne] at hs
      cases hs
    · rw [adjPairs_concat B hBne D, List.dropLast_concat] at hs
      exact chain'_imp_adjPairs hBchain s hs

end SegmentBuilder

/-- C2 counterexample: the Segment Builder output does NOT partition
`[0, D]` for arbitrary silence intervals: a silence `(11, 12)` lying
beyond `D = 10` makes the builder emit the segment `(10, 11)`, which
leaves `[0, 10]` and makes the last end differ from `D`. -/
theorem calculate_segments_out_of_range :
    calculate_segments 10 [(11, 12)] (1/10) = [(0, 10), (10, 11)] ∧
    ¬ ∀ s ∈ calculate_segments 10 [(11, 12)] (1/10), s.2 ≤ 10 := by
  constructor
  · with_unfolding_all decide
  · with_unfolding_all decide

/-- C2 (amended): for every duration `D ≥ 0`, minimum duration `m` and
silence list whose endpoints lie within `[0, D]`, the Segment Builder
output is ordered and contiguous (each end equals the next start),
covers `[0, D]` exactly with no gaps and no overlaps (all segments lie
in `[0, D]` with positive length, the first starts at `0` and the last
ends at `D`; the list is empty only in the degenerate case `D = 0`),
and every segment except possibly the last has length at least `m`. -/
theorem calculate_segments_partition (D m : ℚ) (sil : List (ℚ × ℚ))
    (hD : 0 ≤ D)
    (hsil : ∀ p ∈ sil, 0 ≤ p.1 ∧ p.1 ≤ D ∧ 0 ≤ p.2 ∧ p.2 ≤ D) :
    List.Chain' (fun s t : ℚ × ℚ => s.2 = t.1) (calculate_segments D sil m) ∧
    (∀ s ∈ calculate_segments D sil m, 0 ≤ s.1 ∧ s.1 < s.2 ∧ s.2 ≤ D) ∧
    ((calculate_segments D sil m).head?.map Prod.fst
      = if D = 0 then none else some 0) ∧
    ((calculate_segments D sil m).getLast?.map Prod.snd
      = if D = 0 then none else some D) ∧
    (∀ s ∈ (calculate_segments D sil m).dropLast, m ≤ s.2 - s.1) :=
  calculate_segments_spec D m sil hD hsil

/-- C2 witness: the partition theorem applied to Scenario A's silences.
-/
theorem calculate_segments_partition_witness :
    ((0:ℚ) ≤ 10 ∧
      ∀ p ∈ [((1:ℚ), (2:ℚ)), (5, 6)],
        0 ≤ p.1 ∧ p.1 ≤ 10 ∧ 0 ≤ p.2 ∧ p.2 ≤ 10) ∧
    (List.Chain' (fun s t : ℚ × ℚ => s.2 = t.1)
        (calculate_segments 10 [(1, 2), (5, 6)] (1/10)) ∧
      (∀ s ∈ calculate_segments 10 [(1, 2), (5, 6)] (1/10),
        0 ≤ s.1 ∧ s.1 < s.2 ∧ s.2 ≤ 10) ∧
      ((calculate_segments 10 [(1, 2), (5, 6)] (1/10)).head?.map Prod.fst
        = if (10:ℚ) = 0 then none else some 0) ∧
      ((calculate_segments 10 [(1, 2), (5, 6)] (1/10)).getLast?.map Prod.snd
        = if (10:ℚ) = 0 then none else some 10) ∧
      (∀ s ∈ (calculate_segments 10 [(1, 2), (5, 6)] (1/10)).dropLast,
        1/10 ≤ s.2 - s.1)) :=
  ⟨⟨by norm_num, by with_unfolding_all decide⟩,
    calculate_segments_partition 10 (1/10) [(1, 2), (5, 6)] (by norm_num)
      (by with_unfolding_all decide)⟩

/-- C10: for `D > 0`, `m ≥ 0` and silence endpoints within `[0, D]`,
the Segment Builder returns a non-empty list whose first segment starts
at exactly `0`, whose last segment ends at exactly `D`, and in which no
segment has zero length. -/
theorem calculate_segments_nonempty_cover (D m : ℚ) (sil : List (ℚ × ℚ))
    (hD : 0 < D) (hm : 0 ≤ m)
    (hsil : ∀ p ∈ sil, 0 ≤ p.1 ∧ p.1 ≤ D ∧ 0 ≤ p.2 ∧ p.2 ≤ D) :
    calculate_segments D sil m ≠ [] ∧
    (calculate_segments D sil m).head?.map Prod.fst = some 0 ∧
    (calculate_segments D sil m).getLast?.map Prod.snd = some D ∧
    ∀ s ∈ calculate_segments D sil m, s.1 ≠ s.2 := by
  obtain ⟨_, hbounds, hhead, hlast, _⟩ :=
    calculate_segments_spec D m sil hD.le hsil
  rw [if_neg (ne_of_gt hD)] at hhead hlast
  refine ⟨?_, hhead, hlast, ?_⟩
  · intro h
    rw [h] at hhead
    cases hhead
  · intro s hs
    exact ne_of_lt (hbounds s hs).2.1

/-- C10 witness: the theorem applied to Scenario A's silences. -/
theorem calculate_segments_nonempty_cover_witness :
    ((0:ℚ) < 10 ∧ (0:ℚ) ≤ 1/10 ∧
      ∀ p ∈ [((1:ℚ), (2:ℚ)), (5, 6)],
        0 ≤ p.1 ∧ p.1 ≤ 10 ∧ 0 ≤ p.2 ∧ p.2 ≤ 10) ∧
    (calculate_segments 10 [(1, 2), (5, 6)] (1/10) ≠ [] ∧
      (calculate_segments 10 [(1, 2), (5, 6)] (1/10)).head?.map Prod.fst
        = some 0 ∧
      (calculate_segments 10 [(1, 2), (5, 6)] (1/10)).getLast?.map Prod.snd
        = some 10 ∧
      ∀ s ∈ calculate_segments 10 [(1, 2), (5, 6)] (1/10), s.1 ≠ s.2) :=
  ⟨⟨by norm_num, by norm_num, by with_unfolding_all decide⟩,
    calculate_segments_nonempty_cover 10 (1/10) [(1, 2), (5, 6)]
      (by norm_num) (by norm_num) (by with_unfolding_all decide)⟩

/-- C5 counterexample: `format_time` rounds with Python's `round`,
which sends the tie `0.0025 s = 2.5 ms` down to the even value `2`; the
claimed ties-round-up rule would give `3`. -/
theorem format_time_tie_not_up :
    format_time (1/400) = "00:00:00.002" ∧
    formatTimeSpecUp (1/400) = "00:00:00.003" := by with_unfolding_all decide

end SilenceSlicer
